import Mathlib

/-!
Verification of the PFF framework core against its specification.

This file gives a shallow embedding, in Lean 4, of the number-theoretic and
benchmarking core of the `pff` Python package:

* `src/pff/core/algorithm.py` — `AlgorithmConfig`, `validate_input`,
  `_is_prime`, `verify_factors`;
* `src/pff/engine/algorithms/classical.py` — `ClassicalFactorization`
  (trial division and Pollard's rho);
* `src/pff/engine/algorithms/shors.py` — the classical control logic of
  `ShorsAlgorithm` (coprime selection, perfect-power check, phase-to-period
  conversion, factor extraction from a period);
* `src/pff/engine/utils.py` — `is_prime`, `generate_prime`,
  `generate_semiprime`, `generate_random_composite`;
* `src/pff/engine/benchmark.py` — `calculate_pff`, `run_benchmark`,
  `scaling_analysis`.

Modelling conventions:

* Python integers become `Nat` (all reachable values are nonnegative) or
  `Int` where a function is exercised on possibly negative inputs.
* Python floats (trial durations and the statistics over them) become `ℚ`.
  Rational arithmetic inside executable definitions is written with
  `Rat.divInt`-based helpers (`qAdd`, `qDiv`, ...) so that all definitions
  evaluate inside the kernel; lemmas `qAdd_eq`, `qDiv_eq` identify them with
  the ordinary field operations on `ℚ`.
* A `raise` becomes an `Except Err` error value; the constructors of `Err`
  follow the error taxonomy of the specification.
* Calls to `random.randint` / `random.choice` consume successive values of an
  explicit stream of numbers (`RandState`); every theorem below quantifies
  over the stream.
* Unbounded `while` loops (whose termination the source does not establish)
  take an explicit fuel argument; loops whose iteration count is bounded in
  the source (`max_attempts`, `max_iterations`, `range(...)`) use that bound
  as the structural recursion argument.
-/

/-- Error kinds raised by the modelled code, following the specification's
error taxonomy.  `fuelOut` is a modelling artifact: it is returned when the
fuel bound standing in for an unproven-termination `while` loop runs out. -/
inductive Err where
  | invalidInput
  | generationExhausted
  | noCoprimeFound
  | factorizationFailed
  | factorizationExhausted
  | noSuccessfulTrials
  | invalidDuration
  | fuelOut
  deriving DecidableEq

deriving instance DecidableEq for Except

/-- The random source: a stream of raw numbers together with the index of the
next value to be consumed.  Each call to `random.randint`/`random.choice`
consumes one stream value. -/
structure RandState where
  stream : Nat → Nat
  idx : Nat

/-- Models `random.randint(lo, hi)` (both bounds inclusive): the next stream
value is reduced into the range `[lo, hi]`.  Python raises for an empty
range; the theorems below are only used with `lo ≤ hi`. -/
def randint (st : RandState) (lo hi : Nat) : Nat × RandState :=
  (lo + st.stream st.idx % (hi + 1 - lo), ⟨st.stream, st.idx + 1⟩)

/-- Helper for `natSqrt`: the largest `a ≤ c` with `a * a ≤ n`. -/
def sqrtAux (n : Nat) : Nat → Nat
  | 0 => 0
  | c + 1 => if (c + 1) * (c + 1) ≤ n then c + 1 else sqrtAux n c

/-- Models `int(n ** 0.5)` for a nonnegative integer `n`: the integer square
root (float rounding is not modelled).  Defined by a structural countdown so
that it evaluates inside the kernel. -/
def natSqrt (n : Nat) : Nat := sqrtAux n n

theorem sqrtAux_eq (n : Nat) : ∀ c, sqrtAux n c = min c (Nat.sqrt n) := by
  intro c
  induction c with
  | zero => simp [sqrtAux]
  | succ c ih =>
    unfold sqrtAux
    by_cases h : (c + 1) * (c + 1) ≤ n
    · rw [if_pos h]
      have hle : c + 1 ≤ Nat.sqrt n := Nat.le_sqrt.mpr h
      omega
    · rw [if_neg h, ih]
      have hgt : Nat.sqrt n ≤ c := by
        by_contra hc
        exact h (Nat.le_sqrt.mp (by omega))
      omega

theorem natSqrt_eq (n : Nat) : natSqrt n = Nat.sqrt n := by
  rw [natSqrt, sqrtAux_eq]
  exact min_eq_right (Nat.sqrt_le_self n)

/-- Helper for `natLog2`, structurally recursive on a fuel argument. -/
def log2Aux : Nat → Nat → Nat
  | 0, _ => 0
  | fuel + 1, n => if 2 ≤ n then log2Aux fuel (n / 2) + 1 else 0

/-- Models `int(math.log2(N))` for a positive integer: the floor base-2
logarithm (float rounding is not modelled). -/
def natLog2 (n : Nat) : Nat := log2Aux n n

theorem log2Aux_eq : ∀ fuel n, n ≤ fuel → log2Aux fuel n = Nat.log2 n := by
  intro fuel
  induction fuel with
  | zero =>
    intro n h
    have : n = 0 := by omega
    subst this
    rw [Nat.log2]
    rfl
  | succ fuel ih =>
    intro n h
    unfold log2Aux
    rw [Nat.log2]
    by_cases h2 : 2 ≤ n
    · rw [if_pos h2, if_pos h2, ih (n / 2) (by omega)]
    · rw [if_neg h2, if_neg h2]

theorem natLog2_eq (n : Nat) : natLog2 n = Nat.log2 n := log2Aux_eq n n (le_refl n)

/-- Models Python's `int.bit_length()` (via the kernel-evaluable `natLog2`,
which agrees with `Nat.log2` by `natLog2_eq`). -/
def bit_length (n : Nat) : Nat := if n = 0 then 0 else natLog2 n + 1

/-!
## Kernel-evaluable rational arithmetic

`Rat.add`, `Rat.mul`, ... do not reduce inside the kernel, so the modelled
code computes with the following `Rat.divInt`-based operations instead.  The
bridge lemmas identify them with the field operations of `ℚ`.
-/

/-- Addition on `ℚ`, kernel-evaluable. -/
def qAdd (a b : ℚ) : ℚ := Rat.divInt (a.num * b.den + b.num * a.den) (a.den * b.den)

/-- Subtraction on `ℚ`, kernel-evaluable. -/
def qSub (a b : ℚ) : ℚ := Rat.divInt (a.num * b.den - b.num * a.den) (a.den * b.den)

/-- Multiplication on `ℚ`, kernel-evaluable. -/
def qMul (a b : ℚ) : ℚ := Rat.divInt (a.num * b.num) (a.den * b.den)

/-- Division on `ℚ`, kernel-evaluable. -/
def qDiv (a b : ℚ) : ℚ := Rat.divInt (a.num * b.den) (a.den * b.num)

theorem qAdd_eq (a b : ℚ) : qAdd a b = a + b := by
  rw [qAdd, Rat.divInt_eq_div]
  have ha : ((a.den : ℚ)) ≠ 0 := Nat.cast_ne_zero.mpr a.den_nz
  have hb : ((b.den : ℚ)) ≠ 0 := Nat.cast_ne_zero.mpr b.den_nz
  conv_rhs => rw [← Rat.num_div_den a, ← Rat.num_div_den b]
  push_cast
  field_simp

theorem qDiv_eq (a b : ℚ) : qDiv a b = a / b := by
  rcases eq_or_ne b 0 with rfl | hb0
  · have : Rat.num 0 = 0 := rfl
    simp [qDiv, this]
  · rw [qDiv, Rat.divInt_eq_div]
    have ha : ((a.den : ℚ)) ≠ 0 := Nat.cast_ne_zero.mpr a.den_nz
    have hbd : ((b.den : ℚ)) ≠ 0 := Nat.cast_ne_zero.mpr b.den_nz
    have hbn : ((b.num : ℚ)) ≠ 0 := Int.cast_ne_zero.mpr (Rat.num_ne_zero.mpr hb0)
    conv_rhs => rw [← Rat.num_div_den a, ← Rat.num_div_den b]
    push_cast
    field_simp

/-- Minimum of two rationals, spelled out so that it evaluates in the kernel. -/
def qMin (a b : ℚ) : ℚ := if a ≤ b then a else b

/-- Maximum of two rationals, spelled out so that it evaluates in the kernel. -/
def qMax (a b : ℚ) : ℚ := if a ≤ b then b else a

/-!
## Primality testing

`src/pff/engine/utils.py` (`is_prime`) and `src/pff/core/algorithm.py`
(`FactorizationAlgorithm._is_prime`) contain the same trial-division test;
`is_prime` is modelled on `Nat` (its callers pass nonnegative integers) and
`_is_prime` on `Int` (claim C4 quantifies over all integers).  The Python
loop `for i in range(3, int(n ** 0.5) + 1, 2)` becomes a `List.all` over
`List.range' 3 ((natSqrt n - 1) / 2) 2`, which is exactly the list of values
taken by the loop variable.
-/

/-- Models `pff.engine.utils.is_prime`. -/
def is_prime (n : Nat) : Bool :=
  if n < 2 then false
  else if n = 2 then true
  else if n % 2 = 0 then false
  else (List.range' 3 ((natSqrt n - 1) / 2) 2).all fun i => n % i != 0

/-- Models the static method `FactorizationAlgorithm._is_prime`. -/
def _is_prime (n : Int) : Bool :=
  if n < 2 then false
  else if n = 2 then true
  else if n % 2 = 0 then false
  else (List.range' 3 ((natSqrt n.toNat - 1) / 2) 2).all fun i => n % (i : Int) != 0

theorem is_prime_iff (n : Nat) : is_prime n = true ↔ n.Prime := by
  unfold is_prime
  rcases lt_or_ge n 2 with h2 | h2
  · rw [if_pos h2]
    simp only [Bool.false_eq_true, false_iff]
    intro hp
    exact absurd hp.two_le (by omega)
  · rw [if_neg (by omega)]
    by_cases he : n = 2
    · rw [if_pos he, he]
      simp only [true_iff]
      exact Nat.prime_two
    · rw [if_neg he]
      by_cases hev : n % 2 = 0
      · rw [if_pos hev]
        simp only [Bool.false_eq_true, false_iff]
        intro hp
        have hd := hp.eq_one_or_self_of_dvd 2 (Nat.dvd_of_mod_eq_zero hev)
        omega
      · rw [if_neg hev, List.all_eq_true]
        constructor
        · intro hall
          rw [Nat.prime_def_le_sqrt]
          refine ⟨by omega, fun m hm2 hmle hdvd => ?_⟩
          rcases Nat.even_or_odd m with hme | hmo
          · have h2n : (2 : Nat) ∣ n := dvd_trans hme.two_dvd hdvd
            exact hev (Nat.mod_eq_zero_of_dvd h2n)
          · obtain ⟨k, hk⟩ := hmo
            have hm3 : 3 ≤ m := by omega
            have hmem : m ∈ List.range' 3 ((natSqrt n - 1) / 2) 2 := by
              rw [List.mem_range']
              refine ⟨(m - 3) / 2, ?_, by omega⟩
              rw [natSqrt_eq]
              have hstep : (m - 3) / 2 + 1 ≤ (Nat.sqrt n - 1) / 2 :=
                (Nat.le_div_iff_mul_le (by omega)).mpr (by omega)
              omega
            have hb := hall m hmem
            rw [bne_iff_ne] at hb
            exact hb (Nat.mod_eq_zero_of_dvd hdvd)
        · intro hp i hi
          rw [List.mem_range'] at hi
          obtain ⟨k, hk, hik⟩ := hi
          have hi3 : 3 ≤ i := by omega
          have hile : i ≤ Nat.sqrt n := by
            rw [natSqrt_eq] at hk
            have := (Nat.le_div_iff_mul_le (k := 2) (by omega)).mp (by omega : k + 1 ≤ (Nat.sqrt n - 1) / 2)
            omega
          have hin : i < n := lt_of_le_of_lt hile (Nat.sqrt_lt_self (by omega))
          rw [bne_iff_ne]
          intro hmod
          rcases hp.eq_one_or_self_of_dvd i (Nat.dvd_of_mod_eq_zero hmod) with h1 | h1 <;> omega

theorem _is_prime_natCast (n : Nat) : _is_prime (n : Int) = is_prime n := by
  unfold _is_prime is_prime
  by_cases h2 : n < 2
  · rw [if_pos (by exact_mod_cast h2), if_pos h2]
  · rw [if_neg (by exact_mod_cast h2), if_neg h2]
    by_cases he : n = 2
    · rw [if_pos (by exact_mod_cast he), if_pos he]
    · rw [if_neg (by exact_mod_cast he), if_neg he]
      by_cases hev : n % 2 = 0
      · rw [if_pos (by exact_mod_cast hev), if_pos hev]
      · rw [if_neg (by exact_mod_cast hev), if_neg hev, Int.toNat_natCast]
        have hpt : ∀ i : Nat, ((n : Int) % (i : Int) != 0) = (n % i != 0) := by
          intro i
          rw [← Int.natCast_mod]
          simp [bne, Int.natCast_dvd_natCast, Nat.dvd_iff_mod_eq_zero]
        simp only [hpt]

theorem _is_prime_iff (z : Int) : _is_prime z = true ↔ 2 ≤ z ∧ Prime z := by
  rcases lt_or_ge z 2 with h | h
  · unfold _is_prime
    rw [if_pos h]
    simp only [Bool.false_eq_true, false_iff]
    rintro ⟨h2, _⟩
    omega
  · obtain ⟨m, rfl⟩ : ∃ m : Nat, z = (m : Int) := ⟨z.toNat, (Int.toNat_of_nonneg (by omega)).symm⟩
    rw [_is_prime_natCast, is_prime_iff]
    constructor
    · intro hp
      refine ⟨by exact_mod_cast hp.two_le, ?_⟩
      rw [Int.prime_iff_natAbs_prime, Int.natAbs_ofNat]
      exact hp
    · rintro ⟨_, hp⟩
      rw [Int.prime_iff_natAbs_prime, Int.natAbs_ofNat] at hp
      exact hp

theorem _is_prime_natCast_iff (p : Nat) : _is_prime (p : Int) = true ↔ p.Prime := by
  rw [_is_prime_natCast, is_prime_iff]

/-!
## The algorithm interface: `validate_input` and `verify_factors`

From `FactorizationAlgorithm` in `src/pff/core/algorithm.py`.
-/

/-- Models `FactorizationAlgorithm.validate_input` (each `raise ValueError`
becomes `Err.invalidInput`). -/
def validate_input (N : Int) : Except Err Unit :=
  if N < 2 then .error .invalidInput
  else if N = 2 then .error .invalidInput
  else if _is_prime N then .error .invalidInput
  else .ok ()

/-- Models `FactorizationAlgorithm.verify_factors`: a total function on any
integer `N` and any integer factor list (it never raises). -/
def verify_factors (N : Int) (factors : List Int) : Bool :=
  if factors.isEmpty then false
  else if factors.foldl (fun acc f => acc * f) 1 != N then false
  else factors.all fun f => _is_prime f

/-- Characterisation of `verify_factors`: true exactly on a nonempty list of
prime numbers whose product is `N`. -/
theorem verify_factors_iff (N : Int) (factors : List Int) :
    verify_factors N factors = true ↔
      factors ≠ [] ∧ factors.prod = N ∧ ∀ f ∈ factors, 2 ≤ f ∧ Prime f := by
  rcases factors with _ | ⟨f, fs⟩
  · simp [verify_factors]
  · unfold verify_factors
    rw [show (f :: fs).isEmpty = false from rfl,
      show ((f :: fs).foldl (fun acc x => acc * x) 1) = (f :: fs).prod from
        (List.prod_eq_foldl).symm]
    by_cases hprod : (f :: fs).prod = N
    · have hbne : ((f :: fs).prod != N) = false := by simp [bne, hprod]
      rw [hbne]
      simp only [Bool.false_eq_true, if_false, List.all_eq_true]
      constructor
      · intro hall
        exact ⟨List.cons_ne_nil f fs, hprod, fun x hx => (_is_prime_iff x).mp (hall x hx)⟩
      · rintro ⟨-, -, hall⟩ x hx
        exact (_is_prime_iff x).mpr (hall x hx)
    · have hbne : ((f :: fs).prod != N) = true := bne_iff_ne.mpr hprod
      rw [hbne]
      simp only [Bool.false_eq_true, if_false, if_true, false_iff, not_and]
      intro _ h
      exact absurd h hprod

/-!
## Classical factorization

From `src/pff/engine/algorithms/classical.py`.  The two `while` loops of
`_trial_division` become `stripFactor` (the inner `while N % i == 0` loop)
and `oddFactorLoop` (the outer `while i * i <= N` loop); both take a fuel
argument for structural recursion, and the callers pass the current value of
`N` as fuel, which the correctness lemmas show is always sufficient.
-/

/-- Models the loop `while N % d == 0: factors.append(d); N //= d`:
returns the list of appended copies of `d` and the remaining value of `N`. -/
def stripFactor (d : Nat) : Nat → Nat → List Nat × Nat
  | 0, N => ([], N)
  | fuel + 1, N =>
    if N % d = 0 then
      let r := stripFactor d fuel (N / d)
      (d :: r.1, r.2)
    else ([], N)

/-- Models the loop `i = 3; while i * i <= N: (strip factor i); i += 2` of
`_trial_division`: returns the appended factors and the remaining `N`. -/
def oddFactorLoop : Nat → Nat → Nat → List Nat × Nat
  | 0, _, N => ([], N)
  | fuel + 1, i, N =>
    if i * i ≤ N then
      let s := stripFactor i N N
      let rest := oddFactorLoop fuel (i + 2) s.2
      (s.1 ++ rest.1, rest.2)
    else ([], N)

/-- Models `ClassicalFactorization._trial_division`. -/
def _trial_division (N : Nat) : List Nat :=
  let s2 := stripFactor 2 N N
  let rest := oddFactorLoop s2.2 3 s2.2
  s2.1 ++ rest.1 ++ (if 1 < rest.2 then [rest.2] else [])

/-- Models the `while d == 1` iteration of `_pollards_rho` with
`g(x) = (x * x + 1) % N`, starting from the current `x`, `y`: returns the
first `d = gcd(|x - y|, N)` different from 1, or `none` when the fuel bound
standing in for the unestablished termination of the loop runs out. -/
def rhoIter (N : Nat) : Nat → Nat → Nat → Option Nat
  | 0, _, _ => none
  | fuel + 1, x, y =>
    let x1 := (x * x + 1) % N
    let y1 := (y * y + 1) % N
    let y2 := (y1 * y1 + 1) % N
    let d := Nat.gcd (((x1 : Int) - (y2 : Int)).natAbs) N
    if d = 1 then rhoIter N fuel x1 y2 else some d

/-- Models `ClassicalFactorization._pollards_rho`; `fuel` bounds both the
recursion depth and the rho iteration (the source establishes neither). -/
def _pollards_rho : Nat → Nat → Option (List Nat)
  | 0, _ => none
  | fuel + 1, N =>
    if N % 2 = 0 then (_pollards_rho fuel (N / 2)).map fun l => 2 :: l
    else
      match rhoIter N fuel 2 2 with
      | none => none
      | some d =>
        if d ≠ N then
          (if _is_prime (d : Int) then some [d] else _pollards_rho fuel d).bind fun l1 =>
            (if _is_prime ((N / d : Nat) : Int) then some [N / d]
              else _pollards_rho fuel (N / d)).map fun l2 => l1 ++ l2
        else some (_trial_division N)

/-- Models `ClassicalFactorization.factor`.  `Err.fuelOut` marks the
fuel bound of the Pollard's-rho branch running out (only reachable for
`N ≥ 1,000,000`); `sorted(factors)` becomes an insertion sort. -/
def ClassicalFactorization.factor (N : Nat) : Except Err (List Nat) :=
  match validate_input (N : Int) with
  | .error e => .error e
  | .ok _ =>
    match (if N < 1000000 then some (_trial_division N) else _pollards_rho N N) with
    | none => .error .fuelOut
    | some factors =>
      if verify_factors (N : Int) (factors.map (Nat.cast : Nat → Int)) then
        .ok (factors.insertionSort (· ≤ ·))
      else .error .factorizationFailed

theorem stripFactor_spec (d : Nat) (hd : 2 ≤ d) :
    ∀ fuel N, 1 ≤ N → N ≤ fuel →
      (∀ x ∈ (stripFactor d fuel N).1, x = d) ∧
      (stripFactor d fuel N).1.prod * (stripFactor d fuel N).2 = N ∧
      (stripFactor d fuel N).2 ∣ N ∧
      ¬ d ∣ (stripFactor d fuel N).2 ∧
      1 ≤ (stripFactor d fuel N).2 := by
  intro fuel
  induction fuel with
  | zero => intro N h1 h0; omega
  | succ fuel ih =>
    intro N h1 hle
    by_cases hdvd : N % d = 0
    · have hdvd' : d ∣ N := Nat.dvd_of_mod_eq_zero hdvd
      have hN1 : 1 ≤ N / d := (Nat.one_le_div_iff (by omega)).mpr (Nat.le_of_dvd (by omega) hdvd')
      have hNf : N / d ≤ fuel := by
        have := Nat.div_lt_self (show 0 < N by omega) (show 1 < d by omega)
        omega
      obtain ⟨hall, hprod, hdvd2, hnd, hpos⟩ := ih (N / d) hN1 hNf
      unfold stripFactor
      rw [if_pos hdvd]
      refine ⟨?_, ?_, ?_, hnd, hpos⟩
      · intro x hx
        rcases List.mem_cons.mp hx with h | h
        · exact h
        · exact hall x h
      · rw [List.prod_cons, mul_assoc, hprod, Nat.mul_div_cancel' hdvd']
      · exact dvd_trans hdvd2 (Nat.div_dvd_of_dvd hdvd')
    · unfold stripFactor
      rw [if_neg hdvd]
      refine ⟨by simp, by simp, dvd_refl N, ?_, h1⟩
      intro hc
      exact hdvd (Nat.mod_eq_zero_of_dvd hc)

theorem stripFactor_of_not_dvd (d fuel N : Nat) (hf : 1 ≤ fuel) (h : ¬ d ∣ N) :
    stripFactor d fuel N = ([], N) := by
  rcases fuel with - | fuel
  · omega
  · unfold stripFactor
    rw [if_neg fun hc => h (Nat.dvd_of_mod_eq_zero hc)]

theorem oddFactorLoop_spec :
    ∀ fuel i N, 3 ≤ i → i % 2 = 1 → 1 ≤ N → N % 2 = 1 →
      (∀ p, p.Prime → p ∣ N → i ≤ p) → N < i + 2 * fuel →
      (∀ p ∈ (oddFactorLoop fuel i N).1, p.Prime) ∧
      (oddFactorLoop fuel i N).1.prod * (oddFactorLoop fuel i N).2 = N ∧
      ((oddFactorLoop fuel i N).2 = 1 ∨ ((oddFactorLoop fuel i N).2).Prime) := by
  intro fuel
  induction fuel with
  | zero =>
    intro i N h3 hodd h1 hNodd hmin hfuel
    unfold oddFactorLoop
    refine ⟨by simp, by simp, ?_⟩
    left
    by_contra hne
    have hp := Nat.minFac_prime (show N ≠ 1 by omega)
    have hle1 := hmin _ hp (Nat.minFac_dvd N)
    have hle2 := Nat.minFac_le (show 0 < N by omega)
    omega
  | succ fuel ih =>
    intro i N h3 hodd h1 hNodd hmin hfuel
    unfold oddFactorLoop
    by_cases hguard : i * i ≤ N
    · rw [if_pos hguard]
      obtain ⟨hall2, hprod2, hdvd2, hnd2, hpos2⟩ :=
        stripFactor_spec i (by omega) N N h1 (le_refl N)
      have hMle : (stripFactor i N N).2 ≤ N := Nat.le_of_dvd (by omega) hdvd2
      have hModd : (stripFactor i N N).2 % 2 = 1 := by
        rcases Nat.mod_two_eq_zero_or_one (stripFactor i N N).2 with h | h
        · have h2N : (2 : Nat) ∣ N := dvd_trans (Nat.dvd_of_mod_eq_zero h) hdvd2
          have := Nat.mod_eq_zero_of_dvd h2N
          omega
        · exact h
      have hminM : ∀ p, p.Prime → p ∣ (stripFactor i N N).2 → i + 2 ≤ p := by
        intro p hp hpM
        have hip : i ≤ p := hmin p hp (dvd_trans hpM hdvd2)
        have hpne : p ≠ i := fun hcc => hnd2 (hcc ▸ hpM)
        have hpne1 : p ≠ i + 1 := by
          intro hcc
          have hev : Even p := by
            rcases Nat.even_or_odd p with h | h
            · exact h
            · exfalso
              obtain ⟨k, hk⟩ := h
              omega
          have := (hp.even_iff).mp hev
          omega
        omega
      have hfs1prime : ∀ p ∈ (stripFactor i N N).1, p.Prime := by
        intro p hp
        have hpi := hall2 p hp
        subst hpi
        by_cases hdvdN : p ∣ N
        · have hmf := Nat.minFac_prime (show p ≠ 1 by omega)
          have hle1 : p ≤ p.minFac := hmin _ hmf (dvd_trans (Nat.minFac_dvd p) hdvdN)
          have hle2 : p.minFac ≤ p := Nat.minFac_le (by omega)
          exact Nat.prime_def_minFac.mpr ⟨by omega, by omega⟩
        · rw [stripFactor_of_not_dvd p N N (by omega) hdvdN] at hp
          simp at hp
      obtain ⟨ihall, ihprod, ihR⟩ :=
        ih (i + 2) (stripFactor i N N).2 (by omega) (by omega) hpos2 hModd hminM (by omega)
      refine ⟨?_, ?_, ihR⟩
      · intro p hp
        rcases List.mem_append.mp hp with h | h
        · exact hfs1prime p h
        · exact ihall p h
      · rw [List.prod_append, mul_assoc, ihprod, hprod2]
    · rw [if_neg hguard]
      refine ⟨by simp, by simp, ?_⟩
      rcases eq_or_lt_of_le h1 with h | hN2
      · left; omega
      · right
        by_contra hnp
        have hp := Nat.minFac_prime (show N ≠ 1 by omega)
        have hsq := Nat.minFac_sq_le_self (show 0 < N by omega) hnp
        have hile := hmin _ hp (Nat.minFac_dvd N)
        have hmul : i * i ≤ N.minFac * N.minFac := Nat.mul_le_mul hile hile
        have hpow : N.minFac ^ 2 = N.minFac * N.minFac := sq N.minFac
        omega

/-- C4: for every integer `N` and every list of integers `factors`,
`verify_factors(N, factors)` never fails (it is a total Lean function); it
returns `false` when `factors` is empty, when the product of the factors does
not equal `N`, or when some factor is not a prime number (a prime `≥ 2`: the
code's primality test rejects every integer below 2), and it returns `true`
in all other cases. -/
theorem C4_verify_factors_spec (N : Int) (factors : List Int) :
    verify_factors N factors = true ↔
      factors ≠ [] ∧ factors.prod = N ∧ ∀ f ∈ factors, 2 ≤ f ∧ Prime f :=
  verify_factors_iff N factors

theorem _trial_division_spec (N : Nat) (h1 : 1 ≤ N) :
    (∀ p ∈ _trial_division N, p.Prime) ∧ (_trial_division N).prod = N := by
  unfold _trial_division
  obtain ⟨hall2, hprod2, hdvd2, hnd2, hpos2⟩ :=
    stripFactor_spec 2 (le_refl 2) N N h1 (le_refl N)
  have hModd : (stripFactor 2 N N).2 % 2 = 1 := by
    rcases Nat.mod_two_eq_zero_or_one (stripFactor 2 N N).2 with h | h
    · exact absurd (Nat.dvd_of_mod_eq_zero h) hnd2
    · exact h
  have hmin3 : ∀ p, p.Prime → p ∣ (stripFactor 2 N N).2 → 3 ≤ p := by
    intro p hp hpM
    have h2 := hp.two_le
    rcases eq_or_lt_of_le h2 with h | h
    · exact absurd (h ▸ hpM) hnd2
    · omega
  obtain ⟨hallO, hprodO, hR⟩ :=
    oddFactorLoop_spec (stripFactor 2 N N).2 3 (stripFactor 2 N N).2
      (le_refl 3) (by omega) hpos2 hModd hmin3 (by omega)
  have hRpos : 1 ≤ (oddFactorLoop (stripFactor 2 N N).2 3 (stripFactor 2 N N).2).2 := by
    by_contra hc
    have h0 : (oddFactorLoop (stripFactor 2 N N).2 3 (stripFactor 2 N N).2).2 = 0 := by omega
    rw [h0, mul_zero] at hprodO
    omega
  constructor
  · intro p hp
    rcases List.mem_append.mp hp with hp1 | hp1
    · rcases List.mem_append.mp hp1 with hp2 | hp2
      · have := hall2 p hp2
        subst this
        exact Nat.prime_two
      · exact hallO p hp2
    · by_cases hRgt : 1 < (oddFactorLoop (stripFactor 2 N N).2 3 (stripFactor 2 N N).2).2
      · rw [if_pos hRgt] at hp1
        rcases List.mem_singleton.mp hp1 with rfl
        rcases hR with h | h
        · omega
        · exact h
      · rw [if_neg hRgt] at hp1
        simp at hp1
  · rw [List.prod_append, List.prod_append]
    by_cases hRgt : 1 < (oddFactorLoop (stripFactor 2 N N).2 3 (stripFactor 2 N N).2).2
    · rw [if_pos hRgt, List.prod_singleton, mul_assoc, hprodO]
      exact hprod2
    · have hReq : (oddFactorLoop (stripFactor 2 N N).2 3 (stripFactor 2 N N).2).2 = 1 := by
        omega
      rw [hReq, mul_one] at hprodO
      rw [if_neg hRgt, List.prod_nil, mul_one, hprodO]
      exact hprod2

/-- C1: for every composite integer `N` with `2 ≤ N < 10^6` (not prime and at
least 2), `ClassicalFactorization.factor N` does not fail and returns a list
sorted in ascending order whose elements are all prime and whose product
equals `N`. -/
theorem C1_classical_factor (N : Nat) (h2 : 2 ≤ N) (hnp : ¬ N.Prime) (hlt : N < 1000000) :
    match ClassicalFactorization.factor N with
    | .ok l => List.Sorted (· ≤ ·) l ∧ (∀ p ∈ l, Nat.Prime p) ∧ l.prod = N
    | .error _ => False := by
  obtain ⟨hallP, hprodP⟩ := _trial_division_spec N (by omega)
  have hne2 : N ≠ 2 := fun hc => hnp (hc ▸ Nat.prime_two)
  have hval : validate_input (N : Int) = .ok () := by
    unfold validate_input
    rw [if_neg (by exact_mod_cast not_lt.mpr h2), if_neg (by exact_mod_cast hne2),
      if_neg (by simp [_is_prime_natCast_iff, hnp])]
  have hver : verify_factors (N : Int) ((_trial_division N).map (Nat.cast : Nat → Int)) = true := by
    rw [verify_factors_iff]
    refine ⟨?_, ?_, ?_⟩
    · intro hc
      rw [List.map_eq_nil_iff] at hc
      rw [hc, List.prod_nil] at hprodP
      omega
    · rw [← Nat.cast_list_prod]
      exact_mod_cast hprodP
    · intro f hf
      rw [List.mem_map] at hf
      obtain ⟨p, hpmem, rfl⟩ := hf
      have hp := hallP p hpmem
      refine ⟨by exact_mod_cast hp.two_le, ?_⟩
      rw [Int.prime_iff_natAbs_prime, Int.natAbs_ofNat]
      exact hp
  have hfac : ClassicalFactorization.factor N =
      .ok ((_trial_division N).insertionSort (· ≤ ·)) := by
    unfold ClassicalFactorization.factor
    rw [hval]
    simp only [if_pos hlt, hver, if_true]
  rw [hfac]
  have hperm := List.perm_insertionSort (· ≤ ·) (_trial_division N)
  refine ⟨List.sorted_insertionSort (· ≤ ·) (_trial_division N), ?_, ?_⟩
  · intro p hp
    exact hallP p (hperm.mem_iff.mp hp)
  · rw [hperm.prod_eq]
    exact hprodP

/-- Witness for C1 at the concrete composite input `N = 15`. -/
theorem C1_classical_factor_witness :
    2 ≤ 15 ∧ ¬ Nat.Prime 15 ∧ 15 < 1000000 ∧
      (match ClassicalFactorization.factor 15 with
       | .ok l => List.Sorted (· ≤ ·) l ∧ (∀ p ∈ l, Nat.Prime p) ∧ l.prod = 15
       | .error _ => False) :=
  ⟨by norm_num, by norm_num, by norm_num,
    C1_classical_factor 15 (by norm_num) (by norm_num) (by norm_num)⟩

/-!
## Shor's algorithm: the classical control logic

From `src/pff/engine/algorithms/shors.py`.  The quantum subroutine
`_find_period_quantum` is the external Quantum Period Oracle of the
specification and is modelled as an opaque parameter
`oracle : Nat → Nat → Option Nat`.
-/

/-- Models `ShorsAlgorithm._extract_factors_from_period`.  `pow(a, r // 2, N)`
becomes `a ^ (r / 2) % N`; `math.gcd` on a possibly negative first argument
becomes `Int.gcd` (both take absolute values). -/
def _extract_factors_from_period (a r N : Nat) : Option Nat :=
  if r % 2 ≠ 0 then none
  else
    let x := a ^ (r / 2) % N
    let factor1 := Int.gcd ((x : Int) - 1) (N : Int)
    let factor2 := Int.gcd ((x : Int) + 1) (N : Int)
    if 1 < factor1 ∧ factor1 < N then some factor1
    else if 1 < factor2 ∧ factor2 < N then some factor2
    else none

/-- The continued-fraction loop of the CPython standard library's
`fractions.Fraction.limit_denominator` (`p0, q0, p1, q1 = p1, q1, p0+a*p1, q2`
and `n, d = d, n-a*d`).  The fuel argument makes the recursion structural; the
caller passes the starting denominator, which bounds the strictly decreasing
`d`. -/
def ldLoop (maxd : Nat) : Nat → Nat → Nat → Nat → Nat → Nat → Nat → Nat × Nat × Nat × Nat
  | 0, p0, q0, p1, q1, _, _ => (p0, q0, p1, q1)
  | fuel + 1, p0, q0, p1, q1, n, d =>
    let a := n / d
    let q2 := q0 + a * q1
    if maxd < q2 then (p0, q0, p1, q1)
    else ldLoop maxd fuel p1 q1 (p0 + a * p1) q2 d (n % d)

/-- Modelled from the spec: the repository calls the CPython standard-library
method `fractions.Fraction.limit_denominator` (the "continued-fraction
best-rational-approximation under a denominator bound" of the specification),
whose source is not part of this repository.  This is a transcription of the
CPython implementation, specialised to the nonnegative rationals supplied by
the call site.  Python raises `ValueError` when `max_denominator < 1`; that
branch returns `x` here and is unreachable under the hypotheses used below. -/
def limit_denominator (x : ℚ) (maxd : Nat) : ℚ :=
  if maxd < 1 then x
  else if x.den ≤ maxd then x
  else
    match ldLoop maxd x.den 0 1 1 0 x.num.toNat x.den with
    | (p0, q0, p1, q1) =>
      let k := (maxd - q0) / q1
      let bound1 : ℚ := mkRat ((p0 : Int) + (k : Int) * (p1 : Int)) (q0 + k * q1)
      let bound2 : ℚ := mkRat (p1 : Int) q1
      if |bound2 - x| ≤ |bound1 - x| then bound2 else bound1

/-- Models `ShorsAlgorithm._phase_to_period`: `Fraction(phase, 2 ** n_count)`
becomes `mkRat` (both normalise), and the candidate period is the denominator
of the `limit_denominator(N)` approximation, accepted only when positive and
when `pow(a, r, N) == 1`. -/
def _phase_to_period (phase n_count N a : Nat) : Option Nat :=
  if phase = 0 then none
  else
    let frac := limit_denominator (mkRat (phase : Int) (2 ^ n_count)) N
    let r := frac.den
    if 0 < r ∧ a ^ r % N = 1 then some r else none

/-- Models `ShorsAlgorithm._choose_random_a` with its 100-try budget
(`max_tries`); the final `raise RuntimeError` becomes `Err.noCoprimeFound`. -/
def _choose_random_a (N : Nat) : Nat → RandState → (Except Err Nat) × RandState
  | 0, st => (.error .noCoprimeFound, st)
  | fuel + 1, st =>
    let p := randint st 2 (N - 1)
    if Nat.gcd p.1 N = 1 then (.ok p.1, p.2) else _choose_random_a N fuel p.2

/-- Models `int(round(N ** (1.0 / b)))`: the integer nearest to the real
`b`-th root of `N` (float rounding is not modelled).  The floor root is the
largest `c` with `c ^ b ≤ N`; it is bumped by one exactly when the real root
has fractional part at least one half, i.e. when `(2a+1)^b ≤ 2^b * N`. -/
def nearestRoot (N b : Nat) : Nat :=
  let a := ((List.range (N + 2)).filter fun c => c ^ b ≤ N).foldl max 0
  if 2 ^ b * N < (2 * a + 1) ^ b then a else a + 1

/-- Models `ShorsAlgorithm._check_perfect_power`: the loop
`for b in range(2, int(math.log2(N)) + 1)` returns the first `a` with
`a ** b == N`. -/
def _check_perfect_power (N : Nat) : Option Nat :=
  (List.range' 2 (natLog2 N - 1)).findSome? fun b =>
    let a := nearestRoot N b
    if a ^ b = N then some a else none

/-- Models the attempt loop of `ShorsAlgorithm.factor` (the
`for attempt in range(max_attempts)` body), with the quantum subroutine as an
opaque `oracle`; exhausting all attempts becomes
`Err.factorizationExhausted`. -/
def shors_attempt_loop (oracle : Nat → Nat → Option Nat) (N : Nat) :
    Nat → RandState → Except Err (List Nat)
  | 0, _ => .error .factorizationExhausted
  | fuel + 1, st =>
    match _choose_random_a N 100 st with
    | (.error e, _) => .error e
    | (.ok a, st') =>
      if 1 < Nat.gcd a N then .ok [Nat.gcd a N, N / Nat.gcd a N]
      else
        match oracle a N with
        | none => shors_attempt_loop oracle N fuel st'
        | some r =>
          if r % 2 ≠ 0 then shors_attempt_loop oracle N fuel st'
          else
            match _extract_factors_from_period a r N with
            | none => shors_attempt_loop oracle N fuel st'
            | some f =>
              if verify_factors (N : Int) ([f, N / f].map (Nat.cast : Nat → Int)) then
                .ok ([f, N / f].insertionSort (· ≤ ·))
              else shors_attempt_loop oracle N fuel st'

/-- Stated from claim C10: `shors_attempt_loop` with the "lucky classical
short-circuit" branch (`if gcd > 1: return [gcd, N // gcd]`, source lines
124-128) removed, to be compared with the faithful `shors_attempt_loop`. -/
def shors_attempt_loop_no_lucky (oracle : Nat → Nat → Option Nat) (N : Nat) :
    Nat → RandState → Except Err (List Nat)
  | 0, _ => .error .factorizationExhausted
  | fuel + 1, st =>
    match _choose_random_a N 100 st with
    | (.error e, _) => .error e
    | (.ok a, st') =>
      match oracle a N with
      | none => shors_attempt_loop_no_lucky oracle N fuel st'
      | some r =>
        if r % 2 ≠ 0 then shors_attempt_loop_no_lucky oracle N fuel st'
        else
          match _extract_factors_from_period a r N with
          | none => shors_attempt_loop_no_lucky oracle N fuel st'
          | some f =>
            if verify_factors (N : Int) ([f, N / f].map (Nat.cast : Nat → Int)) then
              .ok ([f, N / f].insertionSort (· ≤ ·))
            else shors_attempt_loop_no_lucky oracle N fuel st'

/-- Models `ShorsAlgorithm.factor`; `maxIter` is the resolved value of
`self.config.max_iterations or 10`. -/
def ShorsAlgorithm.factor (oracle : Nat → Nat → Option Nat) (maxIter : Nat)
    (N : Nat) (st : RandState) : Except Err (List Nat) :=
  match validate_input (N : Int) with
  | .error e => .error e
  | .ok _ =>
    if N % 2 = 0 then .ok [2, N / 2]
    else
      match _check_perfect_power N with
      | some a => .ok [a, N / a]
      | none => shors_attempt_loop oracle N maxIter st

/-- Stated from claim C10: `ShorsAlgorithm.factor` built on the loop without
the lucky short-circuit branch. -/
def ShorsAlgorithm.factor_no_lucky (oracle : Nat → Nat → Option Nat) (maxIter : Nat)
    (N : Nat) (st : RandState) : Except Err (List Nat) :=
  match validate_input (N : Int) with
  | .error e => .error e
  | .ok _ =>
    if N % 2 = 0 then .ok [2, N / 2]
    else
      match _check_perfect_power N with
      | some a => .ok [a, N / a]
      | none => shors_attempt_loop_no_lucky oracle N maxIter st

/-- C2: `_extract_factors_from_period(a, r, N)` returns `none` for odd `r`;
for even `r`, with `x = a ^ (r / 2) % N`, it returns `gcd(x - 1, N)` when that
value lies strictly between 1 and `N`, otherwise `gcd(x + 1, N)` when that
lies strictly between 1 and `N`, otherwise `none`.  In particular
`_extract_factors_from_period 7 4 15 = some 3`, and `ShorsAlgorithm.factor`
on `N = 15` with the oracle stubbed to period 4 for `a = 7` (the random
stream forcing `a = 7`) terminates with the sorted factor pair `[3, 5]`. -/
theorem C2_extract_factors_spec (a r N : Nat) (_hN : 2 ≤ N) :
    (r % 2 = 1 → _extract_factors_from_period a r N = none) ∧
    (r % 2 = 0 →
      _extract_factors_from_period a r N =
        (if 1 < Int.gcd (((a ^ (r / 2) % N : Nat) : Int) - 1) (N : Int) ∧
            Int.gcd (((a ^ (r / 2) % N : Nat) : Int) - 1) (N : Int) < N then
          some (Int.gcd (((a ^ (r / 2) % N : Nat) : Int) - 1) (N : Int))
        else if 1 < Int.gcd (((a ^ (r / 2) % N : Nat) : Int) + 1) (N : Int) ∧
            Int.gcd (((a ^ (r / 2) % N : Nat) : Int) + 1) (N : Int) < N then
          some (Int.gcd (((a ^ (r / 2) % N : Nat) : Int) + 1) (N : Int))
        else none)) ∧
    _extract_factors_from_period 7 4 15 = some 3 ∧
    ShorsAlgorithm.factor (fun x y => if x = 7 ∧ y = 15 then some 4 else none) 10 15
      ⟨fun _ => 5, 0⟩ = .ok [3, 5] := by
  refine ⟨?_, ?_, by decide, by decide⟩
  · intro hodd
    unfold _extract_factors_from_period
    rw [if_pos (by omega)]
  · intro heven
    unfold _extract_factors_from_period
    rw [if_neg (by omega)]

/-- Witness for C2 at the concrete input `(a, r, N) = (7, 4, 15)`. -/
theorem C2_extract_factors_witness :
    2 ≤ 15 ∧ _extract_factors_from_period 7 4 15 = some 3 :=
  ⟨by norm_num, (C2_extract_factors_spec 7 4 15 (by norm_num)).2.2.1⟩

/-- C3: `_phase_to_period(phase, n_count, N, a)` returns a candidate period
`r` exactly when `r` is the denominator of the best rational approximation of
`phase / 2 ^ n_count` with denominator bound `N` (the value computed by
`limit_denominator`), `r > 0`, and `a ^ r mod N = 1`; in every other case —
including `phase = 0` — it returns `none`.  The hypothesis `1 ≤ N` records
the domain of the Python call `pow(a, r, N)`, which raises for `N = 0`. -/
theorem C3_phase_to_period_spec (phase n_count N a : Nat) (_hN : 1 ≤ N) :
    (∀ r : Nat, _phase_to_period phase n_count N a = some r ↔
        phase ≠ 0 ∧ r = (limit_denominator (mkRat (phase : Int) (2 ^ n_count)) N).den ∧
          0 < r ∧ a ^ r % N = 1) ∧
    _phase_to_period 0 n_count N a = none := by
  constructor
  · intro r
    unfold _phase_to_period
    by_cases hp : phase = 0
    · rw [if_pos hp]
      simp [hp]
    · rw [if_neg hp]
      by_cases hcond : 0 < (limit_denominator (mkRat (phase : Int) (2 ^ n_count)) N).den ∧
          a ^ (limit_denominator (mkRat (phase : Int) (2 ^ n_count)) N).den % N = 1
      · rw [if_pos hcond]
        constructor
        · intro h
          injection h with h
          exact ⟨hp, h.symm, h ▸ hcond⟩
        · rintro ⟨-, rfl, -⟩
          rfl
      · rw [if_neg hcond]
        constructor
        · intro h
          exact absurd h (by simp)
        · rintro ⟨-, rfl, h1, h2⟩
          exact absurd ⟨h1, h2⟩ hcond
  · unfold _phase_to_period
    rw [if_pos rfl]

/-- Witness for C3: the textbook measurement `phase = 64` with an 8-qubit
counting register for `N = 15`, `a = 7` yields the period 4. -/
theorem C3_phase_to_period_witness :
    1 ≤ 15 ∧ _phase_to_period 64 8 15 7 = some 4 :=
  ⟨by norm_num,
    ((C3_phase_to_period_spec 64 8 15 7 (by norm_num)).1 4).mpr
      ⟨by norm_num, by decide, by norm_num, by norm_num⟩⟩

theorem _choose_random_a_spec (N : Nat) (h3 : 3 ≤ N) :
    ∀ fuel st a st', _choose_random_a N fuel st = (.ok a, st') →
      2 ≤ a ∧ a ≤ N - 1 ∧ Nat.gcd a N = 1 := by
  intro fuel
  induction fuel with
  | zero =>
    intro st a st' h
    unfold _choose_random_a at h
    simp at h
  | succ fuel ih =>
    intro st a st' h
    unfold _choose_random_a at h
    by_cases hg : Nat.gcd (randint st 2 (N - 1)).1 N = 1
    · rw [if_pos hg] at h
      injection h with hfst hsnd
      injection hfst with hval
      subst hval
      have hm : st.stream st.idx % (N - 1 + 1 - 2) < N - 1 + 1 - 2 :=
        Nat.mod_lt _ (by omega)
      refine ⟨?_, ?_, hg⟩
      · show 2 ≤ (randint st 2 (N - 1)).1
        unfold randint
        omega
      · show (randint st 2 (N - 1)).1 ≤ N - 1
        unfold randint
        omega
    · rw [if_neg hg] at h
      exact ih _ a st' h

/-- C10: every value `a` returned by `_choose_random_a N` satisfies
`2 ≤ a ≤ N - 1` and `gcd(a, N) = 1`; consequently the "lucky classical
short-circuit" branch of `ShorsAlgorithm.factor` that returns
`[gcd(a, N), N / gcd(a, N)]` when `gcd(a, N) > 1` is unreachable — `factor`
coincides with the variant with that branch removed.  The hypothesis `3 ≤ N`
records the domain of `random.randint(2, N - 1)`, which raises for `N < 3`;
every reachable call site has `N` odd, composite, and at least 15. -/
theorem C10_choose_random_a_lucky_branch (N : Nat) (h3 : 3 ≤ N) :
    (∀ fuel st a st', _choose_random_a N fuel st = (.ok a, st') →
        2 ≤ a ∧ a ≤ N - 1 ∧ Nat.gcd a N = 1) ∧
    (∀ oracle maxIter st,
        ShorsAlgorithm.factor oracle maxIter N st =
          ShorsAlgorithm.factor_no_lucky oracle maxIter N st) := by
  refine ⟨_choose_random_a_spec N h3, ?_⟩
  intro oracle maxIter st
  have hloop : ∀ fuel st,
      shors_attempt_loop oracle N fuel st = shors_attempt_loop_no_lucky oracle N fuel st := by
    intro fuel
    induction fuel with
    | zero => intro st; rfl
    | succ fuel ih =>
      intro st
      unfold shors_attempt_loop shors_attempt_loop_no_lucky
      rcases hch : _choose_random_a N 100 st with ⟨res, st'⟩
      rcases res with e | a
      · rfl
      · have hg := (_choose_random_a_spec N h3 100 st a st' hch).2.2
        dsimp only
        rw [hg, if_neg (by omega)]
        simp only [ih]
  unfold ShorsAlgorithm.factor ShorsAlgorithm.factor_no_lucky
  rcases hv : validate_input (N : Int) with e | u
  · rfl
  · dsimp only
    by_cases hev : N % 2 = 0
    · simp only [if_pos hev]
    · simp only [if_neg hev]
      rcases hpp : _check_perfect_power N with - | a
      · exact hloop maxIter st
      · rfl

/-- Witness for C10 at the concrete modulus `N = 15`. -/
theorem C10_choose_random_a_lucky_branch_witness :
    3 ≤ 15 ∧
      ((∀ fuel st a st', _choose_random_a 15 fuel st = (.ok a, st') →
          2 ≤ a ∧ a ≤ 15 - 1 ∧ Nat.gcd a 15 = 1) ∧
       (∀ oracle maxIter st,
          ShorsAlgorithm.factor oracle maxIter 15 st =
            ShorsAlgorithm.factor_no_lucky oracle maxIter 15 st)) :=
  ⟨by norm_num, C10_choose_random_a_lucky_branch 15 (by norm_num)⟩

/-!
## Random number generation

From `src/pff/engine/utils.py`.  Each generator threads the random stream and
always returns the final stream state, so that a caller that catches an
exception (as `generate_semiprime` catches the inner `RuntimeError`)
continues with the stream advanced by the failed attempts.
-/

/-- The attempt loop of `generate_prime` (10,000 attempts in the source):
draw a candidate, make it odd by adding one when even, return it when it
passes `is_prime`. -/
def generate_prime_loop (bits : Nat) : Nat → RandState → (Except Err Nat) × RandState
  | 0, st => (.error .generationExhausted, st)
  | fuel + 1, st =>
    let p := randint st (2 ^ (bits - 1)) (2 ^ bits - 1)
    let c := if p.1 % 2 = 0 then p.1 + 1 else p.1
    if is_prime c then (.ok c, p.2) else generate_prime_loop bits fuel p.2

/-- Models `generate_prime`: `raise ValueError` for `bits < 2` becomes
`Err.invalidInput`, exhaustion of the 10,000-attempt budget becomes
`Err.generationExhausted`. -/
def generate_prime (bits : Nat) (st : RandState) : (Except Err Nat) × RandState :=
  if bits < 2 then (.error .invalidInput, st)
  else generate_prime_loop bits 10000 st

/-- The attempt loop of `generate_semiprime` (1,000 attempts in the source).
`random.choice(bits_q_options)` is modelled as drawing one stream value as an
index into the options list.  The failure of the inner `generate_prime` for
`q` is caught (`except RuntimeError: continue`) only when it is the
generation-exhausted kind; the `p` generation is not wrapped in `try` in the
source, so its failure propagates. -/
def generate_semiprime_loop (s : Nat) : Nat → RandState → (Except Err (Nat × Nat × Nat)) × RandState
  | 0, st => (.error .generationExhausted, st)
  | fuel + 1, st =>
    match generate_prime (s / 2) st with
    | (.error e, st1) => (.error e, st1)
    | (.ok p, st1) =>
      let opts := if s - s / 2 + 1 < s then [s - s / 2, s - s / 2 + 1] else [s - s / 2]
      let j := randint st1 0 (opts.length - 1)
      let bits_q := opts.getD j.1 0
      match generate_prime bits_q j.2 with
      | (.error .generationExhausted, st2) => generate_semiprime_loop s fuel st2
      | (.error e, st2) => (.error e, st2)
      | (.ok q, st2) =>
        if q = p then generate_semiprime_loop s fuel st2
        else
          if bit_length (p * q) = s then (.ok (p * q, p, q), st2)
          else generate_semiprime_loop s fuel st2

/-- Models `generate_semiprime`: `raise ValueError` for `s < 4` becomes
`Err.invalidInput`. -/
def generate_semiprime (s : Nat) (st : RandState) : (Except Err (Nat × Nat × Nat)) × RandState :=
  if s < 4 then (.error .invalidInput, st)
  else generate_semiprime_loop s 1000 st

/-- The rejection loop of `generate_random_composite` for the
non-semiprime case (1,000 attempts). -/
def composite_loop (s : Nat) : Nat → RandState → (Except Err Nat) × RandState
  | 0, st => (.error .generationExhausted, st)
  | fuel + 1, st =>
    let p := randint st (2 ^ (s - 1)) (2 ^ s - 1)
    if ¬ is_prime p.1 ∧ 1 < p.1 then (.ok p.1, p.2) else composite_loop s fuel p.2

/-- Models `generate_random_composite`. -/
def generate_random_composite (s : Nat) (semiprime : Bool) (st : RandState) :
    (Except Err Nat) × RandState :=
  if semiprime then
    match generate_semiprime s st with
    | (.ok t, st') => (.ok t.1, st')
    | (.error e, st') => (.error e, st')
  else composite_loop s 1000 st

theorem generate_prime_loop_ok (bits : Nat) :
    ∀ fuel st c st', generate_prime_loop bits fuel st = (.ok c, st') → is_prime c = true := by
  intro fuel
  induction fuel with
  | zero =>
    intro st c st' h
    unfold generate_prime_loop at h
    simp at h
  | succ fuel ih =>
    intro st c st' h
    unfold generate_prime_loop at h
    by_cases hp : is_prime (if (randint st (2 ^ (bits - 1)) (2 ^ bits - 1)).1 % 2 = 0
        then (randint st (2 ^ (bits - 1)) (2 ^ bits - 1)).1 + 1
        else (randint st (2 ^ (bits - 1)) (2 ^ bits - 1)).1)
    · rw [if_pos hp] at h
      injection h with hfst hsnd
      injection hfst with hval
      rw [← hval]
      exact hp
    · rw [if_neg hp] at h
      exact ih _ c st' h

theorem generate_prime_loop_error (bits : Nat) :
    ∀ fuel st e st', generate_prime_loop bits fuel st = (.error e, st') →
      e = .generationExhausted := by
  intro fuel
  induction fuel with
  | zero =>
    intro st e st' h
    unfold generate_prime_loop at h
    injection h with hfst hsnd
    injection hfst with hval
    exact hval.symm
  | succ fuel ih =>
    intro st e st' h
    unfold generate_prime_loop at h
    by_cases hp : is_prime (if (randint st (2 ^ (bits - 1)) (2 ^ bits - 1)).1 % 2 = 0
        then (randint st (2 ^ (bits - 1)) (2 ^ bits - 1)).1 + 1
        else (randint st (2 ^ (bits - 1)) (2 ^ bits - 1)).1)
    · rw [if_pos hp] at h
      simp at h
    · rw [if_neg hp] at h
      exact ih _ e st' h

theorem generate_prime_ok (bits : Nat) (st : RandState) (c : Nat) (st' : RandState)
    (h : generate_prime bits st = (.ok c, st')) : is_prime c = true := by
  unfold generate_prime at h
  by_cases hb : bits < 2
  · rw [if_pos hb] at h
    simp at h
  · rw [if_neg hb] at h
    exact generate_prime_loop_ok bits 10000 st c st' h

theorem generate_prime_error (bits : Nat) (hb : 2 ≤ bits) (st : RandState) (e : Err)
    (st' : RandState) (h : generate_prime bits st = (.error e, st')) :
    e = .generationExhausted := by
  unfold generate_prime at h
  rw [if_neg (by omega)] at h
  exact generate_prime_loop_error bits 10000 st e st' h

theorem generate_semiprime_loop_spec (s : Nat) (h4 : 4 ≤ s) :
    ∀ fuel st,
      match (generate_semiprime_loop s fuel st).1 with
      | .ok t => t.1 = t.2.1 * t.2.2 ∧ Nat.Prime t.2.1 ∧ Nat.Prime t.2.2 ∧
          t.2.1 ≠ t.2.2 ∧ bit_length t.1 = s
      | .error e => e = .generationExhausted := by
  intro fuel
  induction fuel with
  | zero => intro st; exact rfl
  | succ fuel ih =>
    intro st
    unfold generate_semiprime_loop
    rcases hp : generate_prime (s / 2) st with ⟨pres, st1⟩
    rcases pres with e | p
    · dsimp only
      exact generate_prime_error (s / 2) (by omega) st e st1 hp
    · dsimp only
      have hopts : (if s - s / 2 + 1 < s then [s - s / 2, s - s / 2 + 1] else [s - s / 2]) =
          [s - s / 2, s - s / 2 + 1] := if_pos (by omega)
      rw [hopts]
      have hbq : 2 ≤ [s - s / 2, s - s / 2 + 1].getD
          (randint st1 0 ([s - s / 2, s - s / 2 + 1].length - 1)).1 0 := by
        have hlt : (randint st1 0 ([s - s / 2, s - s / 2 + 1].length - 1)).1 < 2 := by
          show 0 + st1.stream st1.idx % ([s - s / 2, s - s / 2 + 1].length - 1 + 1 - 0) < 2
          have := Nat.mod_lt (st1.stream st1.idx)
            (show 0 < [s - s / 2, s - s / 2 + 1].length - 1 + 1 - 0 by simp)
          simpa using this
        rcases (show (randint st1 0 ([s - s / 2, s - s / 2 + 1].length - 1)).1 = 0 ∨
            (randint st1 0 ([s - s / 2, s - s / 2 + 1].length - 1)).1 = 1 by omega) with h0 | h1
        · rw [h0]
          show 2 ≤ s - s / 2
          omega
        · rw [h1]
          show 2 ≤ s - s / 2 + 1
          omega
      rcases hq : generate_prime
          ([s - s / 2, s - s / 2 + 1].getD
            (randint st1 0 ([s - s / 2, s - s / 2 + 1].length - 1)).1 0)
          (randint st1 0 ([s - s / 2, s - s / 2 + 1].length - 1)).2 with ⟨qres, st2⟩
      rcases qres with e2 | q
      · have he2 := generate_prime_error _ hbq _ e2 st2 hq
        subst he2
        dsimp only
        exact ih st2
      · dsimp only
        by_cases hqp : q = p
        · rw [if_pos hqp]
          exact ih st2
        · rw [if_neg hqp]
          by_cases hbl : bit_length (p * q) = s
          · rw [if_pos hbl]
            refine ⟨rfl, ?_, ?_, fun hc => hqp hc.symm, hbl⟩
            · exact (is_prime_iff p).mp (generate_prime_ok (s / 2) st p st1 hp)
            · exact (is_prime_iff q).mp (generate_prime_ok _ _ q st2 hq)
          · rw [if_neg hbl]
            exact ih st2

/-- C7: for every bit size `s ≥ 4` and every random stream, whenever
`generate_semiprime s` returns a tuple `(N, p, q)` it satisfies `N = p * q`,
`p` and `q` prime, `p ≠ q`, and `bit_length N = s`; for `s < 4` the call
fails (with the `ValueError` of the source, `Err.invalidInput`); for `s ≥ 4`
it can fail only with a generation-exhausted error (either its own
1,000-attempt budget, or the uncaught 10,000-attempt budget of the inner
`generate_prime` for `p` — the specification's taxonomy maps both to
`GenerationExhausted`). -/
theorem C7_generate_semiprime_spec (s : Nat) (st : RandState) :
    (s < 4 → (generate_semiprime s st).1 = .error .invalidInput) ∧
    (4 ≤ s →
      match (generate_semiprime s st).1 with
      | .ok t => t.1 = t.2.1 * t.2.2 ∧ Nat.Prime t.2.1 ∧ Nat.Prime t.2.2 ∧
          t.2.1 ≠ t.2.2 ∧ bit_length t.1 = s
      | .error e => e = .generationExhausted) := by
  constructor
  · intro h4
    unfold generate_semiprime
    rw [if_pos h4]
  · intro h4
    unfold generate_semiprime
    rw [if_neg (by omega)]
    exact generate_semiprime_loop_spec s h4 1000 st

/-- Witness for C7 at `s = 4` (the main contract) and `s = 3` (the failing
precondition), with the constant random stream 1. -/
theorem C7_generate_semiprime_witness :
    (match (generate_semiprime 4 ⟨fun _ => 1, 0⟩).1 with
     | .ok t => t.1 = t.2.1 * t.2.2 ∧ Nat.Prime t.2.1 ∧ Nat.Prime t.2.2 ∧
         t.2.1 ≠ t.2.2 ∧ bit_length t.1 = 4
     | .error e => e = .generationExhausted) ∧
    (generate_semiprime 3 ⟨fun _ => 1, 0⟩).1 = .error .invalidInput :=
  ⟨(C7_generate_semiprime_spec 4 ⟨fun _ => 1, 0⟩).2 (by norm_num),
   (C7_generate_semiprime_spec 3 ⟨fun _ => 1, 0⟩).1 (by norm_num)⟩

/-!
## The benchmarking engine

From `src/pff/engine/benchmark.py`.  Durations measured with
`time.perf_counter` are external inputs: the stream `dur` supplies the
elapsed wall-clock time of each trial.  Floats become rationals; the
statistics are computed with the kernel-evaluable `q`-operations.
-/

/-- The constant `SECONDS_PER_YEAR` of the source. -/
def SECONDS_PER_YEAR : ℚ := 31536000

/-- Models `calculate_pff`: `raise ValueError` for a non-positive duration
becomes `Err.invalidDuration`. -/
def calculate_pff (time_per_run : ℚ) : Except Err ℚ :=
  if time_per_run ≤ 0 then .error .invalidDuration
  else .ok (qDiv SECONDS_PER_YEAR time_per_run)

/-- C8: `calculate_pff time_per_run` fails with an invalid-duration error
exactly when `time_per_run ≤ 0`, and otherwise returns exactly
`31,536,000 / time_per_run`; in particular `calculate_pff 1 = 31,536,000`
and `calculate_pff 0` and `calculate_pff (-1)` both fail. -/
theorem C8_calculate_pff_spec (t : ℚ) :
    (calculate_pff t = .error .invalidDuration ↔ t ≤ 0) ∧
    (0 < t → calculate_pff t = .ok (31536000 / t)) ∧
    calculate_pff 1 = .ok 31536000 ∧
    calculate_pff 0 = .error .invalidDuration ∧
    calculate_pff (-1) = .error .invalidDuration := by
  refine ⟨?_, ?_, ?_, ?_, ?_⟩
  · unfold calculate_pff
    by_cases h : t ≤ 0
    · rw [if_pos h]
      simp [h]
    · rw [if_neg h]
      simp [h]
  · intro h
    unfold calculate_pff
    rw [if_neg (not_le.mpr h), qDiv_eq]
    rfl
  · unfold calculate_pff
    rw [if_neg (by norm_num), qDiv_eq]
    norm_num [SECONDS_PER_YEAR]
  · unfold calculate_pff
    rw [if_pos (le_refl 0)]
  · unfold calculate_pff
    rw [if_pos (by norm_num)]

/-- Witness for C8 at the positive duration `t = 2`. -/
theorem C8_calculate_pff_witness :
    0 < (2 : ℚ) ∧ calculate_pff 2 = .ok (31536000 / 2) :=
  ⟨by norm_num, (C8_calculate_pff_spec 2).2.1 (by norm_num)⟩

/-- Models `FactorizationResult` (`src/pff/core/result.py`): the per-trial
record stored in `individual_results`.  The free-form `metadata` mapping and
the error-message string are reduced to the error kind. -/
structure FactorizationResult where
  N : Nat
  factors : List Nat
  time_seconds : ℚ
  success : Bool
  error : Option Err

/-- Models `BenchmarkResult` (`src/pff/core/result.py`), restricted to the
fields the claims are about; the display fields (`algorithm`, `backend`,
`timestamp`, `metadata`) are strings and wall-clock values and are not
modelled. -/
structure BenchmarkResult where
  s : Nat
  trials : Nat
  successful_trials : Nat
  avg_time : ℚ
  min_time : ℚ
  max_time : ℚ
  std_time : ℚ
  median_time : ℚ
  pff : ℚ
  individual_results : List FactorizationResult
  semiprime : Bool

/-- Models `statistics.mean`: the sum divided by the length. -/
def meanQ (l : List ℚ) : ℚ := qDiv (l.foldl qAdd 0) (mkRat (l.length : Int) 1)

/-- Models Python's `min` on a list (only ever applied to nonempty lists). -/
def minQl : List ℚ → ℚ
  | [] => 0
  | x :: xs => xs.foldl qMin x

/-- Models Python's `max` on a list (only ever applied to nonempty lists). -/
def maxQl : List ℚ → ℚ
  | [] => 0
  | x :: xs => xs.foldl qMax x

/-- Models `statistics.median`: sort, then take the middle element (odd
length) or the average of the two middle elements (even length). -/
def medianQ (l : List ℚ) : ℚ :=
  let sorted := l.insertionSort (· ≤ ·)
  if sorted.length = 0 then 0
  else if sorted.length % 2 = 1 then sorted.getD (sorted.length / 2) 0
  else qDiv (qAdd (sorted.getD (sorted.length / 2 - 1) 0) (sorted.getD (sorted.length / 2) 0))
    (mkRat 2 1)

/-- Models `statistics.stdev` up to its final square root: the Python value
is the square root of this sample variance.  The square root of a rational
is irrational in general and the claims proved below depend only on which
durations enter the computation (and on the one-element case, which the call
site in `run_benchmark` short-circuits to 0), so the model stops at the
radicand. -/
def stdevQ (l : List ℚ) : ℚ :=
  qDiv ((l.map fun x => qMul (qSub x (meanQ l)) (qSub x (meanQ l))).foldl qAdd 0)
    (mkRat ((l.length : Int) - 1) 1)

/-- The trial loop of `run_benchmark` (the `for trial in range(trials)`
body): `count` counts the remaining trials, `tIdx` is the index of the
current trial and `dur tIdx` its measured duration.  Returns the `times`
list of successful durations, the ordered `individual_results`, the
`successful` counter, and the final random state.  A composite-generation
failure propagates: the `generate_random_composite` call sits outside the
`try` block in the source. -/
def benchLoop (alg : Nat → Except Err (List Nat)) (s : Nat) (semiprime : Bool)
    (dur : Nat → ℚ) : Nat → Nat → RandState →
    Except Err (List ℚ × List FactorizationResult × Nat × RandState)
  | _, 0, st => .ok ([], [], 0, st)
  | tIdx, count + 1, st =>
    match generate_random_composite s semiprime st with
    | (.error e, _) => .error e
    | (.ok N, st') =>
      match alg N with
      | .ok factors =>
        let success := verify_factors (N : Int) (factors.map (Nat.cast : Nat → Int))
        match benchLoop alg s semiprime dur (tIdx + 1) count st' with
        | .error e => .error e
        | .ok rest =>
          .ok ((if success then dur tIdx :: rest.1 else rest.1),
            ⟨N, factors, dur tIdx, success, none⟩ :: rest.2.1,
            (if success then rest.2.2.1 + 1 else rest.2.2.1), rest.2.2.2)
      | .error e =>
        match benchLoop alg s semiprime dur (tIdx + 1) count st' with
        | .error e2 => .error e2
        | .ok rest =>
          .ok (rest.1, ⟨N, [], dur tIdx, false, some e⟩ :: rest.2.1, rest.2.2.1, rest.2.2.2)

/-- Models `run_benchmark`: parameter validation (`ValueError` becomes
`Err.invalidInput`), the trial loop, the zero-success check
(`RuntimeError("No successful factorizations completed")` becomes
`Err.noSuccessfulTrials`), the statistics over the successful durations with
`statistics.stdev(times) if len(times) > 1 else 0.0`, and the PFF value. -/
def run_benchmark (alg : Nat → Except Err (List Nat)) (s : Nat) (trials : Nat)
    (semiprime : Bool) (dur : Nat → ℚ) (st : RandState) :
    Except Err (BenchmarkResult × RandState) :=
  if s < 2 then .error .invalidInput
  else if trials < 1 then .error .invalidInput
  else
    match benchLoop alg s semiprime dur 0 trials st with
    | .error e => .error e
    | .ok (times, results, successful, st') =>
      if times.isEmpty then .error .noSuccessfulTrials
      else
        match calculate_pff (meanQ times) with
        | .error e => .error e
        | .ok pff =>
          .ok (⟨s, trials, successful, meanQ times, minQl times, maxQl times,
            (if 1 < times.length then stdevQ times else 0), medianQ times, pff,
            results, semiprime⟩, st')

theorem benchLoop_spec (alg : Nat → Except Err (List Nat)) (s : Nat) (semiprime : Bool)
    (dur : Nat → ℚ) :
    ∀ count tIdx st times results successful stf,
      benchLoop alg s semiprime dur tIdx count st = .ok (times, results, successful, stf) →
      successful = times.length ∧ results.length = count ∧
      times = (results.filter fun t => t.success).map fun t => t.time_seconds := by
  intro count
  induction count with
  | zero =>
    intro tIdx st times results successful stf h
    unfold benchLoop at h
    injection h with h
    rw [Prod.ext_iff, Prod.ext_iff, Prod.ext_iff] at h
    obtain ⟨h1, h2, h3, h4⟩ := h
    subst h1
    subst h2
    subst h3
    simp
  | succ count ih =>
    intro tIdx st times results successful stf h
    unfold benchLoop at h
    rcases hg : generate_random_composite s semiprime st with ⟨gres, stg⟩
    rw [hg] at h
    rcases gres with e | N
    · simp at h
    · dsimp only at h
      rcases ha : alg N with e | factors
      · rw [ha] at h
        dsimp only at h
        rcases hb : benchLoop alg s semiprime dur (tIdx + 1) count stg with e2 | rest
        · rw [hb] at h
          simp at h
        · rw [hb] at h
          obtain ⟨hsp, hlp, hfp⟩ := ih (tIdx + 1) stg rest.1 rest.2.1 rest.2.2.1 rest.2.2.2 hb
          injection h with h
          rw [Prod.ext_iff, Prod.ext_iff, Prod.ext_iff] at h
          obtain ⟨h1, h2, h3, h4⟩ := h
          subst h1
          subst h2
          subst h3
          refine ⟨hsp, by simp [hlp], ?_⟩
          simp only [List.filter_cons]
          simpa using hfp
      · rw [ha] at h
        dsimp only at h
        rcases hb : benchLoop alg s semiprime dur (tIdx + 1) count stg with e2 | rest
        · rw [hb] at h
          simp at h
        · rw [hb] at h
          obtain ⟨hsp, hlp, hfp⟩ := ih (tIdx + 1) stg rest.1 rest.2.1 rest.2.2.1 rest.2.2.2 hb
          injection h with h
          rw [Prod.ext_iff, Prod.ext_iff, Prod.ext_iff] at h
          obtain ⟨h1, h2, h3, h4⟩ := h
          subst h1
          subst h2
          subst h3
          by_cases hs : verify_factors (N : Int) (factors.map (Nat.cast : Nat → Int)) = true
          · simp only [hs, if_true]
            refine ⟨by rw [hsp]; simp, by simp [hlp], ?_⟩
            simp only [List.filter_cons, if_true]
            exact congrArg (List.cons (dur tIdx)) hfp
          · rw [Bool.not_eq_true] at hs
            simp only [hs, Bool.false_eq_true, if_false]
            refine ⟨hsp, by simp [hlp], ?_⟩
            simp only [List.filter_cons]
            simpa using hfp

/-- The property claim C6 asserts of `run_benchmark`, relative to the
outcome of its trial loop.  See `C6_run_benchmark_spec`. -/
def RunBenchmarkClaim (alg : Nat → Except Err (List Nat)) (s trials : Nat)
    (semiprime : Bool) (dur : Nat → ℚ) (st : RandState) : Prop :=
  (∀ times results successful stf,
      benchLoop alg s semiprime dur 0 trials st = .ok (times, results, successful, stf) →
      (run_benchmark alg s trials semiprime dur st = .error .noSuccessfulTrials ↔
        successful = 0)) ∧
  (∀ r stf, run_benchmark alg s trials semiprime dur st = .ok (r, stf) →
      r.successful_trials ≤ trials ∧ r.trials = trials ∧
      ∃ times results stg,
        benchLoop alg s semiprime dur 0 trials st =
          .ok (times, results, r.successful_trials, stg) ∧
        times = ((results.filter fun t => t.success).map fun t => t.time_seconds) ∧
        r.individual_results = results ∧
        r.avg_time = meanQ times ∧ r.min_time = minQl times ∧ r.max_time = maxQl times ∧
        r.median_time = medianQ times ∧
        r.std_time = (if 1 < times.length then stdevQ times else 0) ∧
        (r.successful_trials = 1 → r.std_time = 0) ∧
        r.pff = 31536000 / r.avg_time)

/-- C6 (amended): provided the trial loop completes (no composite-generation
failure), `run_benchmark` fails with `NoSuccessfulTrials` exactly when zero
trials succeed; when it returns, the result satisfies
`successful_trials ≤ trials`, its mean/min/max/median/standard-deviation
fields are computed over the durations of the successful trials only (with
standard deviation 0 when exactly one trial succeeds), and
`pff = 31,536,000 / avg_time`. -/
theorem C6_run_benchmark_spec (alg : Nat → Except Err (List Nat)) (s trials : Nat)
    (semiprime : Bool) (dur : Nat → ℚ) (st : RandState)
    (h2 : 2 ≤ s) (h1 : 1 ≤ trials) :
    RunBenchmarkClaim alg s trials semiprime dur st := by
  constructor
  · intro times results successful stf hb
    obtain ⟨hsp, -, -⟩ :=
      benchLoop_spec alg s semiprime dur trials 0 st times results successful stf hb
    unfold run_benchmark
    rw [if_neg (by omega), if_neg (by omega), hb]
    dsimp only
    by_cases hemp : times.isEmpty
    · have ht : times = [] := List.isEmpty_iff.mp hemp
      rw [if_pos hemp]
      constructor
      · intro _
        rw [hsp, ht]
        rfl
      · intro _
        rfl
    · have hne : times ≠ [] := fun hc => hemp (by rw [hc]; rfl)
      have hlen0 : successful ≠ 0 := by
        intro h0
        rw [hsp] at h0
        exact hne (List.length_eq_zero.mp h0)
      rw [if_neg hemp]
      rcases hc : calculate_pff (meanQ times) with e | pf
      · have he : e = .invalidDuration := by
          unfold calculate_pff at hc
          by_cases hle : meanQ times ≤ 0
          · rw [if_pos hle] at hc
            injection hc with hc'
            exact hc'.symm
          · rw [if_neg hle] at hc
            simp at hc
        constructor
        · intro hcon
          injection hcon with hcon'
          rw [he] at hcon'
          exact absurd hcon' (by decide)
        · intro h0
          exact absurd h0 hlen0
      · constructor
        · intro hcon
          simp at hcon
        · intro h0
          exact absurd h0 hlen0
  · intro r stf hr
    unfold run_benchmark at hr
    rw [if_neg (by omega), if_neg (by omega)] at hr
    rcases hb : benchLoop alg s semiprime dur 0 trials st with e | quad
    · rw [hb] at hr
      simp at hr
    · rw [hb] at hr
      obtain ⟨times, results, successful, stg⟩ := quad
      dsimp only at hr
      by_cases hemp : times.isEmpty
      · rw [if_pos hemp] at hr
        simp at hr
      · rw [if_neg hemp] at hr
        rcases hc : calculate_pff (meanQ times) with e | pf
        · rw [hc] at hr
          simp at hr
        · rw [hc] at hr
          injection hr with hr
          rw [Prod.ext_iff] at hr
          obtain ⟨hrec, hstf⟩ := hr
          subst hrec
          obtain ⟨hsp, hlen, hfil⟩ :=
            benchLoop_spec alg s semiprime dur trials 0 st times results successful stg hb
          have hpf : pf = qDiv SECONDS_PER_YEAR (meanQ times) := by
            unfold calculate_pff at hc
            by_cases hle : meanQ times ≤ 0
            · rw [if_pos hle] at hc
              simp at hc
            · rw [if_neg hle] at hc
              injection hc with hc'
              exact hc'.symm
          refine ⟨?_, rfl, times, results, stg, rfl, hfil, rfl, rfl, rfl, rfl, rfl, rfl,
            ?_, ?_⟩
          · show successful ≤ trials
            have hflt := List.length_filter_le (fun t => t.success) results
            rw [hsp, hfil, List.length_map]
            omega
          · intro h1s
            show (if 1 < times.length then stdevQ times else 0) = 0
            have : successful = 1 := h1s
            rw [if_neg (by omega)]
          · show pf = 31536000 / meanQ times
            rw [hpf, qDiv_eq]
            rfl

/-- Witness for C6 (amended) at a concrete benchmark: the classical
algorithm, size 4, one trial, unit durations, constant random stream 1. -/
theorem C6_run_benchmark_witness :
    2 ≤ 4 ∧ 1 ≤ 1 ∧
      RunBenchmarkClaim (fun N => ClassicalFactorization.factor N) 4 1 true
        (fun _ => 1) ⟨fun _ => 1, 0⟩ :=
  ⟨by norm_num, by norm_num,
    C6_run_benchmark_spec (fun N => ClassicalFactorization.factor N) 4 1 true
      (fun _ => 1) ⟨fun _ => 1, 0⟩ (by norm_num) (by norm_num)⟩

/-- Counterexample to C6 as stated: with `s = 3` and `semiprime = true` the
composite generation raises (`generate_semiprime` requires `s ≥ 4`) outside
the `try` block, so `run_benchmark` fails with that error — not with
`NoSuccessfulTrials` — although zero trials succeeded. -/
theorem C6_run_benchmark_counterexample :
    run_benchmark (fun N => ClassicalFactorization.factor N) 3 1 true (fun _ => 1)
        ⟨fun _ => 1, 0⟩ = .error .invalidInput ∧
      Err.invalidInput ≠ Err.noSuccessfulTrials :=
  ⟨rfl, by decide⟩

/-!
## Scaling analysis

From `scaling_analysis` in `src/pff/engine/benchmark.py`.  The Python `dict`
keyed by size becomes an insertion-ordered association list with overwriting
insertion, which is exactly the `dict` update semantics.
-/

/-- Models `ScalingAnalysisResult` (`src/pff/core/result.py`), restricted to
the fields the claims are about. -/
structure ScalingAnalysisResult where
  sizes : List Nat
  results : List (Nat × BenchmarkResult)

/-- Python `dict` assignment `results[s] = result`: overwrite in place when
the key exists, append otherwise. -/
def dictInsert (k : Nat) (v : BenchmarkResult) :
    List (Nat × BenchmarkResult) → List (Nat × BenchmarkResult)
  | [] => [(k, v)]
  | kv :: rest => if kv.1 = k then (k, v) :: rest else kv :: dictInsert k v rest

/-- The `for i, s in enumerate(sizes, 1)` loop of `scaling_analysis`:
each size is benchmarked in order (`dur k` supplies the durations of the
`k`-th benchmark), any failure propagates and aborts the run. -/
def scalingLoop (alg : Nat → Except Err (List Nat)) (trials : Nat) (semiprime : Bool)
    (dur : Nat → Nat → ℚ) : List Nat → Nat → RandState → List (Nat × BenchmarkResult) →
    Except Err (List (Nat × BenchmarkResult) × RandState)
  | [], _, st, acc => .ok (acc, st)
  | sz :: rest, k, st, acc =>
    match run_benchmark alg sz trials semiprime (dur k) st with
    | .error e => .error e
    | .ok (r, st') => scalingLoop alg trials semiprime dur rest (k + 1) st' (dictInsert sz r acc)

/-- Models `scaling_analysis`. -/
def scaling_analysis (alg : Nat → Except Err (List Nat)) (sizes : List Nat) (trials : Nat)
    (semiprime : Bool) (dur : Nat → Nat → ℚ) (st : RandState) :
    Except Err (ScalingAnalysisResult × RandState) :=
  match scalingLoop alg trials semiprime dur sizes 0 st [] with
  | .error e => .error e
  | .ok (d, st') => .ok (⟨sizes, d⟩, st')

theorem mem_dictInsert_keys (k : Nat) (v : BenchmarkResult) (x : Nat) :
    ∀ d, x ∈ (dictInsert k v d).map Prod.fst ↔ x = k ∨ x ∈ d.map Prod.fst := by
  intro d
  induction d with
  | nil => simp [dictInsert]
  | cons kv rest ih =>
    unfold dictInsert
    by_cases hk : kv.1 = k
    · rw [if_pos hk]
      simp [hk]
    · rw [if_neg hk]
      simp only [List.map_cons, List.mem_cons, ih]
      tauto

theorem nodup_dictInsert_keys (k : Nat) (v : BenchmarkResult) :
    ∀ d, (d.map Prod.fst).Nodup → ((dictInsert k v d).map Prod.fst).Nodup := by
  intro d
  induction d with
  | nil =>
    intro _
    simp [dictInsert]
  | cons kv rest ih =>
    intro hnd
    rw [List.map_cons, List.nodup_cons] at hnd
    unfold dictInsert
    by_cases hk : kv.1 = k
    · rw [if_pos hk]
      rw [List.map_cons, List.nodup_cons]
      exact ⟨by rw [← hk]; exact hnd.1, hnd.2⟩
    · rw [if_neg hk]
      rw [List.map_cons, List.nodup_cons]
      refine ⟨?_, ih hnd.2⟩
      rw [mem_dictInsert_keys]
      rintro (h | h)
      · exact hk h
      · exact hnd.1 h

theorem scalingLoop_keys (alg : Nat → Except Err (List Nat)) (trials : Nat)
    (semiprime : Bool) (dur : Nat → Nat → ℚ) :
    ∀ sizes k st acc d stf,
      scalingLoop alg trials semiprime dur sizes k st acc = .ok (d, stf) →
      (acc.map Prod.fst).Nodup →
      (d.map Prod.fst).Nodup ∧
        ∀ x, x ∈ d.map Prod.fst ↔ x ∈ acc.map Prod.fst ∨ x ∈ sizes := by
  intro sizes
  induction sizes with
  | nil =>
    intro k st acc d stf h hnd
    unfold scalingLoop at h
    injection h with h
    rw [Prod.ext_iff] at h
    obtain ⟨h1, h2⟩ := h
    subst h1
    simpa using hnd
  | cons sz rest ih =>
    intro k st acc d stf h hnd
    unfold scalingLoop at h
    rcases hr : run_benchmark alg sz trials semiprime (dur k) st with e | pr
    · rw [hr] at h
      simp at h
    · rw [hr] at h
      obtain ⟨r, st'⟩ := pr
      dsimp only at h
      obtain ⟨hd1, hd2⟩ := ih (k + 1) st' (dictInsert sz r acc) d stf h
        (nodup_dictInsert_keys sz r acc hnd)
      refine ⟨hd1, fun x => ?_⟩
      rw [hd2 x, mem_dictInsert_keys]
      simp only [List.mem_cons]
      tauto

/-- C5 (amended): `scaling_analysis` does not reject duplicate sizes.  On
every successful run the returned result keeps the `sizes` list exactly as
given (duplicates included) and its results mapping holds one entry per
distinct size — a repeated size is benchmarked again and overwrites the
earlier entry, rather than making the call fail. -/
theorem C5_scaling_analysis_amended :
    ∀ (alg : Nat → Except Err (List Nat)) (sizes : List Nat) (trials : Nat)
      (semiprime : Bool) (dur : Nat → Nat → ℚ) (st : RandState),
      match scaling_analysis alg sizes trials semiprime dur st with
      | .ok t => t.1.sizes = sizes ∧ (t.1.results.map Prod.fst).Nodup ∧
          ∀ x, x ∈ t.1.results.map Prod.fst ↔ x ∈ sizes
      | .error _ => True := by
  intro alg sizes trials semiprime dur st
  unfold scaling_analysis
  rcases hl : scalingLoop alg trials semiprime dur sizes 0 st [] with e | pr
  · exact trivial
  · obtain ⟨d, stf⟩ := pr
    obtain ⟨hnd, hmem⟩ := scalingLoop_keys alg trials semiprime dur sizes 0 st [] d stf hl
      (by simp)
    refine ⟨rfl, hnd, fun x => ?_⟩
    rw [hmem x]
    simp

/-- Counterexample to C5 as stated: a complete scaling run over the
duplicate-containing size list `[4, 6, 6]` (classical algorithm, one trial
per size, unit durations, an explicit random stream under which every
generation and factorization succeeds) returns a `ScalingAnalysisResult`
instead of failing. -/
theorem C5_scaling_analysis_counterexample :
    (scaling_analysis (fun N => ClassicalFactorization.factor N) [4, 6, 6] 1 true
        (fun _ _ => 1) ⟨fun i => [1, 1, 1, 1, 0, 3, 1, 0, 3].getD i 0, 0⟩).isOk = true := by
  rfl

/-!
## Algorithm configuration

From the dataclass `AlgorithmConfig` in `src/pff/core/algorithm.py`.
-/

/-- Models the `AlgorithmConfig` dataclass.  `additional_params` is the open
mapping of extra parameters (modelled as an association list). -/
structure AlgorithmConfig where
  backend : String
  shots : Int
  optimization_level : Int
  max_iterations : Option Int
  additional_params : List (String × String)

/-- Models constructing `AlgorithmConfig(...)`, including `__post_init__`,
which only replaces a missing `additional_params` with an empty mapping and
performs no validation; construction never raises. -/
def AlgorithmConfig.make (backend : String) (shots : Int) (optimization_level : Int)
    (max_iterations : Option Int) (additional_params : Option (List (String × String))) :
    Except Err AlgorithmConfig :=
  .ok ⟨backend, shots, optimization_level, max_iterations, additional_params.getD []⟩

/-- The default configuration `AlgorithmConfig()` (all dataclass defaults:
backend `aer_simulator`, 1024 shots, optimization level 1, no iteration cap,
no extra parameters). -/
def AlgorithmConfig.defaultConfig : Except Err AlgorithmConfig :=
  AlgorithmConfig.make "aer_simulator" 1024 1 none none

/-- C9 (amended): constructing an `AlgorithmConfig` never fails — the
dataclass performs no validation, so values violating the documented bounds
(shot count > 0; max-iterations, when set, > 0) are accepted; the default
configuration does satisfy the bounds (1024 shots, no iteration cap). -/
theorem C9_algorithm_config_amended :
    (∀ backend shots optimization_level max_iterations additional_params,
        AlgorithmConfig.make backend shots optimization_level max_iterations
            additional_params =
          .ok ⟨backend, shots, optimization_level, max_iterations,
            additional_params.getD []⟩) ∧
    (∃ c, AlgorithmConfig.defaultConfig = .ok c ∧ 0 < c.shots ∧ c.max_iterations = none) :=
  ⟨fun _ _ _ _ _ => rfl,
    ⟨⟨"aer_simulator", 1024, 1, none, []⟩, rfl, by norm_num, rfl⟩⟩

/-- Counterexample to C9 as stated: a configuration with a zero shot count —
violating the invariant — is constructed without failure. -/
theorem C9_algorithm_config_counterexample :
    AlgorithmConfig.make "aer_simulator" 0 1 none none =
        .ok ⟨"aer_simulator", 0, 1, none, []⟩ ∧
      ¬ (0 : Int) > 0 :=
  ⟨rfl, by norm_num⟩
